import Mathlib

/-!
Shallow embedding of the Intrinio realtime Node SDK (`src/index.js`, the
current v5 client) and proofs about it.  Byte buffers are modelled as
`List Nat` whose entries are octet values; `bytes.getD i 0` models the
JavaScript read `bytes[i]` at an in-range index.  JavaScript behaviour that
throws is modelled with `Option` (`none` = exception).
-/

namespace Intrinio

/-- `SELF_HEAL_BACKOFFS` (`src/index.js` line 7). -/
def SELF_HEAL_BACKOFFS : List Nat := [10000, 30000, 60000, 300000, 600000]

/-- `readUInt64(bytes, startPos)` (`src/index.js` lines 95-111): little-endian
8-byte read returning a BigInt, `lower + (upper << 32)`.  When the first or
last byte is out of range the JavaScript code computes `BigInt(NaN)`, which
throws; that is modelled as `none`. -/
def readUInt64 (bytes : List Nat) (startPos : Nat) : Option Nat :=
  if startPos + 8 ≤ bytes.length then
    some ((bytes.getD startPos 0 + bytes.getD (startPos + 1) 0 * 256 +
        bytes.getD (startPos + 2) 0 * 65536 + bytes.getD (startPos + 3) 0 * 16777216) +
      (bytes.getD (startPos + 4) 0 + bytes.getD (startPos + 5) 0 * 256 +
        bytes.getD (startPos + 6) 0 * 65536 + bytes.getD (startPos + 7) 0 * 16777216) *
        4294967296)
  else none

/-- `_getSubProvider(val)` (`src/index.js` lines 388-415).  Note the switch has
cases 0 through 6 only; everything else, including 7, hits the default. -/
def getSubProvider (val : Nat) : String :=
  match val with
  | 0 => "NONE"
  | 1 => "CTA_A"
  | 2 => "CTA_B"
  | 3 => "UTP"
  | 4 => "OTC"
  | 5 => "NASDAQ_BASIC"
  | 6 => "IEX"
  | _ => "NONE"

/-- The wire-byte-to-name table claimed by the spec for values 0 through 6. -/
def subProviderTable : List String :=
  ["NONE", "CTA_A", "CTA_B", "UTP", "OTC", "NASDAQ_BASIC", "IEX"]

/-- The sleep sequence produced by `doBackoff` (`src/index.js` lines 19-32).
The outcomes of the successive `callback` calls are supplied as a list of
Booleans (`true` = the promise fulfilled); `i` is the current index into
`SELF_HEAL_BACKOFFS`, updated by `i = Math.min(i + 1, SELF_HEAL_BACKOFFS.length - 1)`
after each sleep.  The result lists the arguments of the successive
`sleep(backoff)` calls; the loop exits at the first `true`. -/
def doBackoffSleeps : List Bool → Nat → List Nat
  | [], _ => []
  | true :: _, _ => []
  | false :: rest, i =>
      SELF_HEAL_BACKOFFS.getD i 0 ::
        doBackoffSleeps rest (min (i + 1) (SELF_HEAL_BACKOFFS.length - 1))

lemma doBackoffSleeps_replicate (n : Nat) (rest : List Bool) (i : Nat) (hi : i ≤ 4) :
    doBackoffSleeps (List.replicate n false ++ true :: rest) i =
      (List.range n).map (fun k => SELF_HEAL_BACKOFFS.getD (min (i + k) 4) 0) := by
  induction n generalizing i with
  | zero => simp [doBackoffSleeps]
  | succ n ih =>
      rw [List.replicate_succ, List.cons_append, doBackoffSleeps]
      have hlen : SELF_HEAL_BACKOFFS.length - 1 = 4 := by decide
      rw [hlen, ih (min (i + 1) 4) (by omega), List.range_succ_eq_map, List.map_cons,
        List.map_map]
      refine congrArg₂ _ (by rw [Nat.min_eq_left (by omega : i + 0 ≤ 4)]; simp) ?_
      refine List.map_congr_left fun k _ => ?_
      have : min (min (i + 1) 4 + k) 4 = min (i + (k + 1)) 4 := by omega
      simp [Function.comp, this]

/-- C4: in `doBackoff`, the k-th consecutive failure of the callback is
followed by a sleep of `SELF_HEAL_BACKOFFS[min(k, 4)]` milliseconds (the
schedule saturates at the last entry), and the driver returns as soon as a
call succeeds: with `n` initial failures followed by a success the sleeps are
exactly `SELF_HEAL_BACKOFFS[min(0,4)], …, SELF_HEAL_BACKOFFS[min(n-1,4)]`,
whatever outcomes follow the first success, with no bound on `n` (hence none
on the total elapsed time). -/
theorem doBackoff_schedule (n : Nat) (rest : List Bool) :
    doBackoffSleeps (List.replicate n false ++ true :: rest) 0 =
      (List.range n).map (fun k => SELF_HEAL_BACKOFFS.getD (min k 4) 0) := by
  simpa using doBackoffSleeps_replicate n rest 0 (by omega)

/-- C8: `readUInt64` decodes exactly the unsigned little-endian 64-bit value
`Σ_{i<8} bytes[startPos+i]·2^(8·i)` whenever 8 bytes are available, with no
loss above 2^53 (the arithmetic is exact on `Nat`, as BigInt is in the
source). -/
theorem readUInt64_littleEndian (bytes : List Nat) (startPos : Nat)
    (h : startPos + 8 ≤ bytes.length) :
    readUInt64 bytes startPos =
      some (Finset.sum (Finset.range 8)
        (fun i => bytes.getD (startPos + i) 0 * 2 ^ (8 * i))) := by
  rw [readUInt64, if_pos h]
  congr 1
  simp [Finset.sum_range_succ]
  ring

/-- Witness for C8 at the concrete buffer `[1,2,3,4,5,6,7,255]`. -/
theorem readUInt64_littleEndian_witness :
    readUInt64 [1, 2, 3, 4, 5, 6, 7, 255] 0 =
      some (Finset.sum (Finset.range 8)
        (fun i => ([1, 2, 3, 4, 5, 6, 7, 255] : List Nat).getD (0 + i) 0 * 2 ^ (8 * i))) :=
  readUInt64_littleEndian [1, 2, 3, 4, 5, 6, 7, 255] 0 (by decide)

/-- Counterexample for C6 as stated: the switch in `_getSubProvider` has no
case for 7, so the wire byte 7 maps to `"NONE"`, not `"CBOE_ONE"`. -/
theorem getSubProvider_seven_not_cboe :
    getSubProvider 7 = "NONE" ∧ getSubProvider 7 ≠ "CBOE_ONE" := by
  constructor
  · rfl
  · decide

/-- C6 (amended): `_getSubProvider` maps 0,…,6 to `NONE`, `CTA_A`, `CTA_B`,
`UTP`, `OTC`, `NASDAQ_BASIC`, `IEX` respectively, and every other value —
including 7 — to `NONE` (there is no `CBOE_ONE` case in the code). -/
theorem getSubProvider_spec :
    (∀ v : Nat, v ≤ 6 → getSubProvider v = subProviderTable.getD v "") ∧
    (∀ v : Nat, 7 ≤ v → getSubProvider v = "NONE") := by
  constructor
  · intro v hv
    interval_cases v <;> rfl
  · intro v hv
    obtain ⟨n, rfl⟩ : ∃ n, v = n + 7 := ⟨v - 7, by omega⟩
    rfl

/-- Witness for C6's amended theorem at the concrete bytes 6 and 7. -/
theorem getSubProvider_spec_witness :
    getSubProvider 6 = subProviderTable.getD 6 "" ∧ getSubProvider 7 = "NONE" :=
  ⟨getSubProvider_spec.1 6 (by omega), getSubProvider_spec.2 7 (by omega)⟩

/-! ### Join control frames (C7) -/

/-- `"$lobby"` as UTF-16 code units (a JavaScript string is a sequence of
UTF-16 code units; we model strings that reach the byte writer this way). -/
def lobbyUnits : List Nat := [36, 108, 111, 98, 98, 121]

/-- `"$FIREHOSE"` as UTF-16 code units. -/
def firehoseUnits : List Nat := [36, 70, 73, 82, 69, 72, 79, 83, 69]

/-- UTF-8 bytes of U+FFFD, produced by `TextEncoder` for lone surrogates. -/
def replacementBytes : List Nat := [239, 191, 189]

/-- UTF-8 encoding of one Unicode code point. -/
def encodeCodePoint (c : Nat) : List Nat :=
  if c < 128 then [c]
  else if c < 2048 then [192 + c / 64, 128 + c % 64]
  else if c < 65536 then [224 + c / 4096, 128 + c / 64 % 64, 128 + c % 64]
  else [240 + c / 262144, 128 + c / 4096 % 64, 128 + c / 64 % 64, 128 + c % 64]

def isHighSurrogate (u : Nat) : Bool := decide (55296 ≤ u ∧ u < 56320)

def isLowSurrogate (u : Nat) : Bool := decide (56320 ≤ u ∧ u < 57344)

/-- `encoder.encode` (`TextEncoder`, UTF-8) on a list of UTF-16 code units:
surrogate pairs combine into one code point, lone surrogates become U+FFFD. -/
def utf8Encode : List Nat → List Nat
  | [] => []
  | [u] =>
      if isHighSurrogate u || isLowSurrogate u then replacementBytes
      else encodeCodePoint u
  | u :: v :: rest =>
      if isHighSurrogate u then
        if isLowSurrogate v then
          encodeCodePoint (65536 + (u - 55296) * 1024 + (v - 56320)) ++ utf8Encode rest
        else replacementBytes ++ utf8Encode (v :: rest)
      else if isLowSurrogate u then replacementBytes ++ utf8Encode (v :: rest)
      else encodeCodePoint u ++ utf8Encode (v :: rest)

/-- `TypedArray.set(src, startPos)`: overwrite `bytes` with `src` starting at
`startPos`; `none` models the RangeError thrown when the source overruns the
target array. -/
def typedArraySet (bytes src : List Nat) (startPos : Nat) : Option (List Nat) :=
  if startPos + src.length ≤ bytes.length then
    some (bytes.take startPos ++ src ++ bytes.drop (startPos + src.length))
  else none

/-- `writeString(bytes, string, startPos)` (`src/index.js` lines 113-122).
The string argument is given as its UTF-16 code units, so `string.length` is
`units.length` while `encoder.encode(string)` is `utf8Encode units`.  The
guard `startPos > bytes.length - 1` (on JavaScript numbers) returns the
array unchanged; when fewer bytes are available than `string.length` the
encoded bytes are trimmed to the available count before the `set`. -/
def writeString (bytes : List Nat) (units : List Nat) (startPos : Nat) :
    Option (List Nat) :=
  if startPos + 1 > bytes.length then some bytes
  else
    let encodedString := utf8Encode units
    let bytesAvailable := bytes.length - startPos
    if bytesAvailable < units.length then
      typedArraySet bytes (encodedString.take bytesAvailable) startPos
    else typedArraySet bytes encodedString startPos

/-- `_makeJoinMessage(tradesOnly, symbol)` (`src/index.js` lines 566-590).
A fresh `Uint8Array(n)` is all zeros; byte 0 is 74 (`'J'`), byte 1 the
trades-only flag, and the symbol — `"$FIREHOSE"` when the symbol is
`"$lobby"` — is written from offset 2. -/
def makeJoinMessage (tradesOnly : Bool) (symbol : List Nat) : Option (List Nat) :=
  if symbol = lobbyUnits then
    writeString ((74 : Nat) :: (if tradesOnly then 1 else 0) :: List.replicate 9 0)
      firehoseUnits 2
  else
    writeString ((74 : Nat) :: (if tradesOnly then 1 else 0) :: List.replicate symbol.length 0)
      symbol 2

lemma utf8Encode_ascii (units : List Nat) (h : ∀ c ∈ units, c < 128) :
    utf8Encode units = units := by
  induction units with
  | nil => rfl
  | cons u rest ih =>
      have hu : u < 128 := h u (by simp)
      have h1 : isHighSurrogate u = false := by
        simp only [isHighSurrogate, decide_eq_false_iff_not]; omega
      have h2 : isLowSurrogate u = false := by
        simp only [isLowSurrogate, decide_eq_false_iff_not]; omega
      have henc : encodeCodePoint u = [u] := by rw [encodeCodePoint, if_pos hu]
      have ih' := ih (fun c hc => h c (by simp [hc]))
      rcases rest with _ | ⟨v, rest2⟩
      · simp [utf8Encode, h1, h2, henc]
      · simp only [utf8Encode, h1, h2, Bool.false_eq_true, if_false, henc, ih',
          List.singleton_append]

lemma writeString_exact (pre : List Nat) (units : List Nat) (pad : Nat)
    (hpre : pre.length = 2) (hpad : pad = units.length)
    (hascii : ∀ c ∈ units, c < 128) :
    writeString (pre ++ List.replicate pad 0) units 2 = some (pre ++ units) := by
  subst hpad
  rw [writeString]
  rcases hu : units with _ | ⟨u, rest⟩
  · simp [hpre]
  · have hlen : (pre ++ List.replicate (u :: rest).length 0).length =
        2 + (u :: rest).length := by simp [hpre]
    rw [if_neg (by rw [hlen]; simp only [List.length_cons]; omega)]
    simp only [hlen, Nat.add_sub_cancel_left]
    rw [if_neg (by omega)]
    rw [utf8Encode_ascii _ (hu ▸ hascii), typedArraySet,
      if_pos (by rw [hlen])]
    congr 1
    rw [List.take_append_of_le_length (by omega), List.take_of_length_le (by omega),
      List.drop_eq_nil_of_le (by rw [hlen])]
    simp

/-- C7: `_makeJoinMessage(t, s)` produces exactly `[0x4A, t ? 1 : 0]` followed
by the ASCII bytes of `s` for every ASCII symbol `s` other than `"$lobby"`
(in particular `join("AAPL", false)` encodes to
`[0x4A, 0x00, 0x41, 0x41, 0x50, 0x4C]`), while for `"$lobby"` it produces the
11-byte frame `[0x4A, flag] ++ "$FIREHOSE"`. -/
theorem makeJoinMessage_spec :
    (∀ (t : Bool) (s : List Nat), s ≠ lobbyUnits → (∀ c ∈ s, c < 128) →
      makeJoinMessage t s = some (74 :: (if t then 1 else 0) :: s)) ∧
    (∀ t : Bool,
      makeJoinMessage t lobbyUnits =
        some (74 :: (if t then 1 else 0) :: firehoseUnits)) := by
  constructor
  · intro t s hs hascii
    rw [makeJoinMessage, if_neg hs]
    exact writeString_exact [74, if t then 1 else 0] s s.length rfl rfl hascii
  · intro t
    rw [makeJoinMessage, if_pos rfl]
    exact writeString_exact [74, if t then 1 else 0] firehoseUnits 9 rfl rfl (by decide)

/-- Witness for C7 at `"AAPL"` (units `[65,65,80,76]`) and `"$lobby"`. -/
theorem makeJoinMessage_spec_witness :
    makeJoinMessage false [65, 65, 80, 76] = some [74, 0, 65, 65, 80, 76] ∧
    makeJoinMessage true lobbyUnits = some (74 :: 1 :: firehoseUnits) :=
  ⟨by simpa using makeJoinMessage_spec.1 false [65, 65, 80, 76] (by decide) (by decide),
   by simpa using makeJoinMessage_spec.2 true⟩

/-! ### The subscription registry and `_join` (C5, C9) -/

/-- The subscription registry (`this._channels`, a JavaScript `Map` keyed by
the channel string, in insertion order) together with the join frames handed
to `this._websocket.send`, in order. -/
structure ClientState where
  channels : List (List Nat × Bool)
  sent : List (List Nat)
  deriving DecidableEq

/-- `this._channels.has(c)`. -/
def channelsHas (m : List (List Nat × Bool)) (c : List Nat) : Bool :=
  m.any (fun p => p.1 = c)

/-- `this._channels.get(c)`. -/
def channelsGet (m : List (List Nat × Bool)) (c : List Nat) : Option Bool :=
  (m.find? (fun p => p.1 = c)).map (fun p => p.2)

/-- `_join(symbol, tradesOnly)` (`src/index.js` lines 725-735): when the
channel is absent it is added to the registry (`Map.set` appends a new key in
insertion order) and a join frame is built and sent; when present nothing
happens.  There is no validation of the channel string whatsoever.  Were
`_makeJoinMessage` to throw (impossible for ASCII symbols), the channel would
already be registered and no frame sent, since `set` precedes the send. -/
def clientJoin (st : ClientState) (symbol : List Nat) (tradesOnly : Bool) :
    ClientState :=
  if channelsHas st.channels symbol then st
  else
    match makeJoinMessage tradesOnly symbol with
    | some msg =>
        { channels := st.channels ++ [(symbol, tradesOnly)], sent := st.sent ++ [msg] }
    | none => { channels := st.channels ++ [(symbol, tradesOnly)], sent := st.sent }

/-- Counterexample for C5 as stated: `_join` performs no validation, so both
the empty channel string and a 21-character channel string ARE added to the
registry and a join frame IS sent for each (the 20-character/empty check
exists only in the legacy v1 client, not in this one). -/
theorem join_no_validation_counterexample :
    (clientJoin ⟨[], []⟩ [] false).channels = [([], false)] ∧
    (clientJoin ⟨[], []⟩ [] false).sent = [[74, 0]] ∧
    (clientJoin ⟨[], []⟩ (List.replicate 21 65) false).channels =
      [(List.replicate 21 65, false)] ∧
    (clientJoin ⟨[], []⟩ (List.replicate 21 65) false).sent =
      [74 :: 0 :: List.replicate 21 65] := by
  decide

/-- C5 (amended): no join request is rejected on the channel string's length
or emptiness — for every ASCII channel string not already present, including
the empty string and strings longer than 20 characters, `_join` adds the
channel to the registry and sends a join frame. -/
theorem join_accepts_any_new_channel (st : ClientState) (symbol : List Nat)
    (t : Bool) (habs : channelsHas st.channels symbol = false)
    (hascii : ∀ c ∈ symbol, c < 128) :
    (clientJoin st symbol t).channels = st.channels ++ [(symbol, t)] ∧
    (clientJoin st symbol t).sent = st.sent ++
      [74 :: (if t then 1 else 0) ::
        (if symbol = lobbyUnits then firehoseUnits else symbol)] := by
  rw [clientJoin, if_neg (by simp [habs])]
  by_cases hsym : symbol = lobbyUnits
  · subst hsym
    rw [makeJoinMessage_spec.2 t]
    exact ⟨rfl, by simp⟩
  · rw [makeJoinMessage_spec.1 t symbol hsym hascii]
    exact ⟨rfl, by simp [hsym]⟩

/-- Witness for C5's amended theorem: a fresh client accepts the 21-character
channel `"AAAAAAAAAAAAAAAAAAAAA"`. -/
theorem join_accepts_any_new_channel_witness :
    (clientJoin ⟨[], []⟩ (List.replicate 21 65) false).channels =
      [] ++ [(List.replicate 21 65, false)] ∧
    (clientJoin ⟨[], []⟩ (List.replicate 21 65) false).sent = [] ++
      [74 :: (if false then 1 else 0) ::
        (if List.replicate 21 65 = lobbyUnits then firehoseUnits
         else List.replicate 21 65)] :=
  join_accepts_any_new_channel ⟨[], []⟩ (List.replicate 21 65) false (by decide)
    (by decide)

lemma find?_append_of_none {α : Type} (l1 l2 : List α) (p : α → Bool)
    (h : l1.find? p = none) : (l1 ++ l2).find? p = l2.find? p := by
  induction l1 with
  | nil => rfl
  | cons a l ih =>
      rcases hpa : p a with _ | _
      · rw [List.cons_append, List.find?_cons_of_neg _ (by simp [hpa]),
          ih (by rwa [List.find?_cons_of_neg _ (by simp [hpa])] at h)]
      · rw [List.find?_cons_of_pos _ hpa] at h
        exact absurd h (by simp)

/-- C9: adding a channel is idempotent with first-write-wins on the
trades-only flag: starting from any state in which channel `c` is absent,
after `_join(c, t1)` the registry maps `c` to `t1`, and a second
`_join(c, t2)` leaves the whole state (registry and sent frames) unchanged —
no join frame is sent for it. -/
theorem join_idempotent_first_wins (st : ClientState) (c : List Nat)
    (t1 t2 : Bool) (habs : channelsHas st.channels c = false) :
    channelsGet (clientJoin st c t1).channels c = some t1 ∧
    clientJoin (clientJoin st c t1) c t2 = clientJoin st c t1 := by
  have hch : (clientJoin st c t1).channels = st.channels ++ [(c, t1)] := by
    rw [clientJoin, if_neg (by simp [habs])]
    rcases makeJoinMessage t1 c with _ | _ <;> rfl
  have hfind : st.channels.find? (fun p => p.1 = c) = none := by
    rw [List.find?_eq_none]
    intro x hx hxc
    have hmem : st.channels.any (fun p => p.1 = c) = true :=
      List.any_eq_true.mpr ⟨x, hx, hxc⟩
    simp only [channelsHas] at habs
    rw [hmem] at habs
    simp at habs
  constructor
  · rw [hch, channelsGet, find?_append_of_none _ _ _ hfind]
    simp [List.find?_cons]
  · rw [clientJoin, if_pos]
    rw [hch, channelsHas, List.any_append]
    simp

/-- Witness for C9 on a fresh client with channel `"AAPL"`. -/
theorem join_idempotent_first_wins_witness :
    channelsGet (clientJoin ⟨[], []⟩ [65, 65, 80, 76] true).channels
      [65, 65, 80, 76] = some true ∧
    clientJoin (clientJoin ⟨[], []⟩ [65, 65, 80, 76] true) [65, 65, 80, 76] false =
      clientJoin ⟨[], []⟩ [65, 65, 80, 76] true :=
  join_idempotent_first_wins ⟨[], []⟩ [65, 65, 80, 76] true false (by decide)

/-! ### The shared mutable `defaultConfig` (C10) -/

/-- `defaultConfig` (`src/index.js` lines 271-276) as a record of its four
keys. -/
structure Config where
  provider : String
  ipAddress : Option String
  tradesOnly : Bool
  isPublicKey : Bool
  deriving DecidableEq

/-- The module-level initial value of `defaultConfig`. -/
def initialDefaultConfig : Config :=
  { provider := "REALTIME", ipAddress := none, tradesOnly := false,
    isPublicKey := false }

/-- A user-supplied `config` object: each recognized key either present
(`some`) or omitted (`none`). -/
structure UserConfig where
  provider : Option String
  ipAddress : Option (Option String)
  tradesOnly : Option Bool
  isPublicKey : Option Bool
  deriving DecidableEq

/-- `Object.assign(target, source)` on these keys: keys present in `source`
overwrite `target`, omitted keys keep the target's value — and the TARGET
object itself is returned, so `this._config = Object.assign(defaultConfig,
config)` (`src/index.js` line 291) mutates the module-level `defaultConfig`
in place and aliases `this._config` to it. -/
def objectAssign (target : Config) (c : UserConfig) : Config :=
  { provider := c.provider.getD target.provider,
    ipAddress := c.ipAddress.getD target.ipAddress,
    tradesOnly := c.tradesOnly.getD target.tradesOnly,
    isPublicKey := c.isPublicKey.getD target.isPublicKey }

/-- The value of the shared `defaultConfig` object (which is also
`this._config`) after `IntrinioRealtime`'s constructor runs (`src/index.js`
lines 289-326): `Object.assign(defaultConfig, config)` followed by
`this._config.tradesOnly = true` when no `onQuote` callback was given. -/
def constructorConfig (globalDefault : Config) (cfg : UserConfig)
    (hasOnQuote : Bool) : Config :=
  let merged := objectAssign globalDefault cfg
  if hasOnQuote then merged else { merged with tradesOnly := true }

/-- C10: constructing a client writes into the module-level `defaultConfig`
itself, so for two clients constructed in sequence every key set during the
first construction — including `tradesOnly` forced to `true` when `onQuote`
is omitted — is observed as the default by the second construction whenever
the second config object omits that key. -/
theorem defaultConfig_mutation (g : Config) (c1 : UserConfig) (q1 : Bool)
    (c2 : UserConfig) (q2 : Bool) :
    (q1 = false → (constructorConfig g c1 q1).tradesOnly = true) ∧
    (c2.provider = none →
      (objectAssign (constructorConfig g c1 q1) c2).provider =
        (constructorConfig g c1 q1).provider) ∧
    (c2.ipAddress = none →
      (objectAssign (constructorConfig g c1 q1) c2).ipAddress =
        (constructorConfig g c1 q1).ipAddress) ∧
    (c2.isPublicKey = none →
      (objectAssign (constructorConfig g c1 q1) c2).isPublicKey =
        (constructorConfig g c1 q1).isPublicKey) ∧
    (c2.tradesOnly = none →
      (objectAssign (constructorConfig g c1 q1) c2).tradesOnly =
        (constructorConfig g c1 q1).tradesOnly) ∧
    (c2.tradesOnly = none → q2 = true →
      (constructorConfig (constructorConfig g c1 q1) c2 q2).tradesOnly =
        (constructorConfig g c1 q1).tradesOnly) := by
  refine ⟨?_, ?_, ?_, ?_, ?_, ?_⟩
  · intro h; subst h; simp [constructorConfig]
  · intro h; simp [objectAssign, h]
  · intro h; simp [objectAssign, h]
  · intro h; simp [objectAssign, h]
  · intro h; simp [objectAssign, h]
  · intro h hq; subst hq; simp [constructorConfig, objectAssign, h]

/-- Witness for C10: first client passes `provider := "MANUAL"` and omits
`onQuote`; second client omits every key and observes `MANUAL` and
`tradesOnly = true` as its defaults. -/
theorem defaultConfig_mutation_witness :
    ((constructorConfig initialDefaultConfig
        ⟨some "MANUAL", some (some "1.2.3.4"), none, none⟩ false).tradesOnly = true) ∧
    ((objectAssign (constructorConfig initialDefaultConfig
        ⟨some "MANUAL", some (some "1.2.3.4"), none, none⟩ false)
        ⟨none, none, none, none⟩).provider =
      (constructorConfig initialDefaultConfig
        ⟨some "MANUAL", some (some "1.2.3.4"), none, none⟩ false).provider) := by
  have h := defaultConfig_mutation initialDefaultConfig
    ⟨some "MANUAL", some (some "1.2.3.4"), none, none⟩ false
    ⟨none, none, none, none⟩ true
  exact ⟨h.1 rfl, h.2.1 rfl⟩

/-! ### The frame parser `_parseSocketMessage` (C1) -/

/-- `Uint8Array.slice(start, end)` for in-range arguments: the elements from
index `start` (inclusive) to `end` (exclusive), clamped to the array. -/
def jsSlice (bytes : List Nat) (s e : Nat) : List Nat := (bytes.take e).drop s

/-- One callback invocation (or skipped sub-message) recorded by the frame
parser, in order: `trade chunk` is an `onTrade(this._parseTrade(chunk))`
call, `quote chunk` an `onQuote(this._parseQuote(chunk))` call, and
`invalid t` the `console.warn` branch for an unknown message type
(`t = none` when `bytes[startIndex]` was `undefined`). -/
inductive WireEvent
  | trade (chunk : List Nat)
  | quote (chunk : List Nat)
  | invalid (msgType : Option Nat)
  deriving DecidableEq

/-- The loop of `_parseSocketMessage` (`src/index.js` lines 452-470) with
`count` iterations remaining and the cursor at `startIndex`.  A `none`
cursor models the JavaScript `NaN` that arises once
`bytes[startIndex + 1]` is `undefined` (`endIndex = startIndex + undefined`);
from then on every iteration reads `bytes[NaN] = undefined` and warns.  When
only `msgLength` is `undefined`, `slice(startIndex, NaN)` clamps to the
empty chunk and the cursor becomes `NaN`. -/
def parseLoop (bytes : List Nat) : Option Nat → Nat → List WireEvent
  | _, 0 => []
  | none, count + 1 => WireEvent.invalid none :: parseLoop bytes none count
  | some s, count + 1 =>
      match bytes.get? s, bytes.get? (s + 1) with
      | some t, some len =>
          (match t with
            | 0 => WireEvent.trade (jsSlice bytes s (s + len))
            | 1 => WireEvent.quote (jsSlice bytes s (s + len))
            | 2 => WireEvent.quote (jsSlice bytes s (s + len))
            | _ => WireEvent.invalid (some t)) ::
            parseLoop bytes (some (s + len)) count
      | some t, none =>
          (match t with
            | 0 => WireEvent.trade (jsSlice bytes s 0)
            | 1 => WireEvent.quote (jsSlice bytes s 0)
            | 2 => WireEvent.quote (jsSlice bytes s 0)
            | _ => WireEvent.invalid (some t)) :: parseLoop bytes none count
      | none, _ => WireEvent.invalid none :: parseLoop bytes none count

/-- `_parseSocketMessage(data)` (`src/index.js` lines 448-471): byte 0 is the
sub-message count, the cursor starts at 1.  The result is the ordered list
of callback invocations. -/
def parseSocketMessage (data : List Nat) : List WireEvent :=
  match data.get? 0 with
  | none => []
  | some n => parseLoop data (some 1) n

lemma jsSlice_append (pre mid rest : List Nat) :
    jsSlice (pre ++ (mid ++ rest)) pre.length (pre.length + mid.length) = mid := by
  rw [jsSlice, ← List.append_assoc, List.take_append_eq_append_take]
  have h1 : pre.length + mid.length - (pre ++ mid).length = 0 := by simp
  rw [h1, List.take_zero, List.append_nil,
    List.take_of_length_le (by simp), List.drop_left]

lemma get?_append_exact {α : Type} (pre rest : List α) (i : Nat) :
    (pre ++ rest).get? (pre.length + i) = rest.get? i := by
  induction pre with
  | nil => simp
  | cons a l ih =>
      have hidx : (a :: l).length + i = (l.length + i) + 1 := by
        simp only [List.length_cons]; omega
      rw [List.cons_append, hidx, List.get?_cons_succ, ih]

lemma get?_append_lt {α : Type} (l₁ l₂ : List α) (i : Nat) (h : i < l₁.length) :
    (l₁ ++ l₂).get? i = l₁.get? i := by
  induction l₁ generalizing i with
  | nil => simp at h
  | cons a l ih =>
      cases i with
      | zero => rfl
      | succ n => simpa using ih n (by simpa using h)

lemma parseLoop_join (subs : List (List Nat)) (pre : List Nat)
    (hlen : ∀ m ∈ subs, 2 ≤ m.length)
    (hmsgLen : ∀ m ∈ subs, m.get? 1 = some m.length)
    (htype : ∀ m ∈ subs, m.get? 0 = some 0 ∨ m.get? 0 = some 1 ∨ m.get? 0 = some 2) :
    parseLoop (pre ++ subs.flatten) (some pre.length) subs.length =
      subs.map (fun m =>
        if m.get? 0 = some 0 then WireEvent.trade m else WireEvent.quote m) := by
  induction subs generalizing pre with
  | nil => rfl
  | cons m subs ih =>
      have hm2 : 2 ≤ m.length := hlen m (by simp)
      have hget0 : (pre ++ (m :: subs).flatten).get? pre.length = m.get? 0 := by
        have h := get?_append_exact pre (m ++ subs.flatten) 0
        rw [Nat.add_zero] at h
        rw [List.flatten_cons, h, get?_append_lt m subs.flatten 0 (by omega)]
      have hget1 : (pre ++ (m :: subs).flatten).get? (pre.length + 1) = m.get? 1 := by
        rw [List.flatten_cons, get?_append_exact pre (m ++ subs.flatten) 1,
          get?_append_lt m subs.flatten 1 (by omega)]
      have hchunk : jsSlice (pre ++ (m :: subs).flatten) pre.length
          (pre.length + m.length) = m := by
        rw [List.flatten_cons]
        exact jsSlice_append pre m subs.flatten
      rw [List.length_cons, parseLoop, hget0, hget1, hmsgLen m (by simp)]
      have hrec : parseLoop (pre ++ (m :: subs).flatten) (some (pre.length + m.length))
          subs.length =
          subs.map (fun m =>
            if m.get? 0 = some 0 then WireEvent.trade m else WireEvent.quote m) := by
        have hre : pre ++ (m :: subs).flatten = (pre ++ m) ++ subs.flatten := by
          rw [List.flatten_cons, List.append_assoc]
        have hl : pre.length + m.length = (pre ++ m).length := by simp
        rw [hre, hl]
        exact ih (pre ++ m) (fun x hx => hlen x (by simp [hx]))
          (fun x hx => hmsgLen x (by simp [hx])) (fun x hx => htype x (by simp [hx]))
      rcases htype m (by simp) with h0 | h1 | h2
      · rw [h0]
        simp only [List.map_cons, if_pos h0, hrec, hchunk]
      · rw [h1]
        have : m.get? 0 ≠ some 0 := by rw [h1]; simp
        simp only [List.map_cons, if_neg this, hrec, hchunk]
      · rw [h2]
        have : m.get? 0 ≠ some 0 := by rw [h2]; simp
        simp only [List.map_cons, if_neg this, hrec, hchunk]

/-- C1: for every frame whose first byte is `N` followed by the
concatenation of `N` well-formed sub-messages (each at least two bytes, with
its declared `msgLen` equal to its actual length and `msgType` 0, 1 or 2),
`_parseSocketMessage` invokes the user callbacks exactly `N` times, in
sub-message order, routing `msgType` 0 to `onTrade` and 1 and 2 to
`onQuote`, each applied to exactly that sub-message's bytes (the cursor
advances by each sub-message's `msgLen`). -/
theorem parseSocketMessage_wellFormed (subs : List (List Nat))
    (hlen : ∀ m ∈ subs, 2 ≤ m.length)
    (hmsgLen : ∀ m ∈ subs, m.get? 1 = some m.length)
    (htype : ∀ m ∈ subs, m.get? 0 = some 0 ∨ m.get? 0 = some 1 ∨ m.get? 0 = some 2) :
    parseSocketMessage (subs.length :: subs.flatten) =
      subs.map (fun m =>
        if m.get? 0 = some 0 then WireEvent.trade m else WireEvent.quote m) := by
  rw [parseSocketMessage]
  have h0 : (subs.length :: subs.flatten).get? 0 = some subs.length := rfl
  rw [h0]
  have : subs.length :: subs.flatten = [subs.length] ++ subs.flatten := rfl
  rw [this]
  have hpre : (1 : Nat) = ([subs.length] : List Nat).length := rfl
  rw [hpre]
  exact parseLoop_join subs [subs.length] hlen hmsgLen htype

/-- Witness for C1: a three-sub-message frame with one trade and two quotes
parses to the three routed callback invocations in declared order. -/
theorem parseSocketMessage_wellFormed_witness :
    parseSocketMessage (([[0, 4, 9, 9], [1, 3, 7], [2, 2]] : List (List Nat)).length ::
        ([[0, 4, 9, 9], [1, 3, 7], [2, 2]] : List (List Nat)).flatten) =
      ([[0, 4, 9, 9], [1, 3, 7], [2, 2]] : List (List Nat)).map (fun m =>
        if m.get? 0 = some 0 then WireEvent.trade m else WireEvent.quote m) :=
  parseSocketMessage_wellFormed [[0, 4, 9, 9], [1, 3, 7], [2, 2]]
    (by decide) (by decide) (by decide)

/-! ### `readFloat32` and the price fields (C2) -/

/-- A JavaScript number as far as this pipeline needs: a finite value
(represented exactly — every finite IEEE-754 value is a rational, and the
steps involved are exact at this granularity), `+Infinity`, `-Infinity`, or
`NaN`. -/
inductive JsNum
  | fin (q : ℚ)
  | posInf
  | negInf
  | nan
  deriving DecidableEq

/-- The 32 bits at four little-endian byte positions (a `Uint8Array` element
write converts its value to an octet, hence the `% 256`). -/
def floatBits (b0 b1 b2 b3 : Nat) : Nat :=
  b0 % 256 + b1 % 256 * 256 + b2 % 256 * 65536 + b3 % 256 * 16777216

/-- IEEE-754 binary32 sign bit of a 32-bit pattern. -/
def floatSign (bits : Nat) : Nat := bits / 2 ^ 31

/-- IEEE-754 binary32 exponent field of a 32-bit pattern. -/
def floatExpo (bits : Nat) : Nat := bits / 2 ^ 23 % 256

/-- IEEE-754 binary32 fraction field of a 32-bit pattern. -/
def floatFrac (bits : Nat) : Nat := bits % 2 ^ 23

/-- The magnitude of the finite binary32 value with exponent field `expo`
(< 255) and fraction field `frac`: subnormals are `frac·2⁻¹⁴⁹`, normals
`(2²³ + frac)·2^(expo−150)`. -/
def floatMag (expo frac : Nat) : ℚ :=
  if expo = 0 then (frac : ℚ) * ((2 : ℚ) ^ (149 : Nat))⁻¹
  else ((2 ^ 23 + frac : Nat) : ℚ) * (2 : ℚ) ^ (expo : Nat) * ((2 : ℚ) ^ (150 : Nat))⁻¹

/-- Interpret a 32-bit pattern as an IEEE-754 binary32 value. -/
def decodeBits (bits : Nat) : JsNum :=
  if floatExpo bits = 255 then
    if floatFrac bits = 0 then
      if floatSign bits = 1 then JsNum.negInf else JsNum.posInf
    else JsNum.nan
  else
    if floatSign bits = 1 then JsNum.fin (-(floatMag (floatExpo bits) (floatFrac bits)))
    else JsNum.fin (floatMag (floatExpo bits) (floatFrac bits))

/-- `x.toFixed(4)` then `parseFloat`, at exact-rational granularity: the
multiple of 1/10000 nearest to `x`, ties towards +∞ (ECMA-262 `toFixed`
picks the larger candidate on a tie). -/
def roundFix4 (q : ℚ) : ℚ := ((⌊q * 10000 + 1 / 2⌋ : ℤ) : ℚ) / 10000

/-- `parseFloat(x.toFixed(4))` on a JavaScript number: `NaN` and the
infinities round-trip through their string forms unchanged. -/
def jsToFixed4 : JsNum → JsNum
  | JsNum.fin q => JsNum.fin (roundFix4 q)
  | JsNum.posInf => JsNum.posInf
  | JsNum.negInf => JsNum.negInf
  | JsNum.nan => JsNum.nan

/-- The JavaScript comparison `x < 0` (false for `NaN`). -/
def JsNum.ltZero : JsNum → Bool
  | JsNum.fin q => decide (q < 0)
  | JsNum.posInf => false
  | JsNum.negInf => true
  | JsNum.nan => false

/-- The JavaScript predicate `x >= 0` (false for `NaN`). -/
def JsNum.nonneg : JsNum → Prop
  | JsNum.fin q => 0 ≤ q
  | JsNum.posInf => True
  | JsNum.negInf => False
  | JsNum.nan => False

/-- The 32-bit pattern `readFloat32` assembles from `bytes` at `startPos`
(an out-of-range `bytes[i]` is `undefined`, which a `Uint8Array` element
write stores as 0 — modelled by `getD _ 0`). -/
def bitsAt (bytes : List Nat) (startPos : Nat) : Nat :=
  floatBits (bytes.getD startPos 0) (bytes.getD (startPos + 1) 0)
    (bytes.getD (startPos + 2) 0) (bytes.getD (startPos + 3) 0)

/-- `readFloat32(bytes, float32Array, backingByteArray, startPos)`
(`src/index.js` lines 82-93): the four bytes at `startPos` are copied into
the backing store of a one-element `Float32Array` and read back, then
`parsed = parseFloat(value.toFixed(4))`, and `parsed < 0 ? 0 : parsed` is
returned. -/
def readFloat32 (bytes : List Nat) (startPos : Nat) : JsNum :=
  let parsed := jsToFixed4 (decodeBits (bitsAt bytes startPos))
  if parsed.ltZero then JsNum.fin 0 else parsed

/-- The `Price` field of `_parseTrade(bytes)` (`src/index.js` lines
417-431): `readFloat32` at offset `6 + symbolLength`, `symbolLength =
bytes[2]`. -/
def parseTradePrice (bytes : List Nat) : JsNum :=
  readFloat32 bytes (6 + bytes.getD 2 0)

/-- The `Price` field of `_parseQuote(bytes)` (`src/index.js` lines
433-446): the same offset expression as in `_parseTrade`. -/
def parseQuotePrice (bytes : List Nat) : JsNum :=
  readFloat32 bytes (6 + bytes.getD 2 0)

lemma roundFix4_nonpos {q : ℚ} (h : q ≤ 0) : roundFix4 q ≤ 0 := by
  rw [roundFix4]
  have h1 : q * 10000 + 1 / 2 ≤ 1 / 2 := by nlinarith
  have h2 : ⌊q * 10000 + 1 / 2⌋ ≤ ⌊(1 / 2 : ℚ)⌋ := Int.floor_le_floor h1
  have h3 : ⌊(1 / 2 : ℚ)⌋ = 0 := by
    rw [Int.floor_eq_iff]
    constructor <;> norm_num
  have h4 : ⌊q * 10000 + 1 / 2⌋ ≤ 0 := by omega
  have h5 : ((⌊q * 10000 + 1 / 2⌋ : ℤ) : ℚ) ≤ 0 := by exact_mod_cast h4
  nlinarith

lemma roundFix4_nonneg {q : ℚ} (h : 0 ≤ q) : 0 ≤ roundFix4 q := by
  rw [roundFix4]
  have h1 : (0 : ℚ) ≤ q * 10000 + 1 / 2 := by nlinarith
  have h2 : (0 : ℤ) ≤ ⌊q * 10000 + 1 / 2⌋ := Int.floor_nonneg.mpr h1
  have h3 : (0 : ℚ) ≤ ((⌊q * 10000 + 1 / 2⌋ : ℤ) : ℚ) := by exact_mod_cast h2
  nlinarith

lemma floatMag_nonneg (expo frac : Nat) : 0 ≤ floatMag expo frac := by
  rw [floatMag]
  split
  · positivity
  · positivity

/-- Counterexample for C2 as stated: the all-ones byte pattern decodes to
`NaN`; `NaN.toFixed(4)` is `"NaN"`, `parseFloat("NaN")` is `NaN`, and
`NaN < 0` is false, so `readFloat32` returns `NaN` — which is not
non-negative (`NaN >= 0` is false in JavaScript). -/
theorem readFloat32_nan_counterexample :
    readFloat32 [255, 255, 255, 255] 0 = JsNum.nan ∧
    ¬ (readFloat32 [255, 255, 255, 255] 0).nonneg :=
  ⟨rfl, fun h => h⟩

/-- C2 (amended): for every byte pattern other than a `NaN` pattern
(exponent field 255 with non-zero fraction), the value `readFloat32` returns
is non-negative; every pattern decoding to a negative or `-Infinity` value —
sign bit set, not `NaN` — yields exactly 0; every non-negative finite
pattern yields the decoded value rounded to four decimal digits
(`roundFix4`, ties towards +∞ as in `toFixed`); `+Infinity` passes through;
`NaN` patterns yield `NaN`.  Consequently the `Price` field of every parsed
trade and quote whose price bytes are not a `NaN` pattern is non-negative. -/
theorem readFloat32_spec (bytes : List Nat) (off : Nat) :
    (floatExpo (bitsAt bytes off) = 255 ∧ floatFrac (bitsAt bytes off) ≠ 0 →
      readFloat32 bytes off = JsNum.nan) ∧
    (floatSign (bitsAt bytes off) = 1 →
      ¬(floatExpo (bitsAt bytes off) = 255 ∧ floatFrac (bitsAt bytes off) ≠ 0) →
      readFloat32 bytes off = JsNum.fin 0) ∧
    (floatSign (bitsAt bytes off) ≠ 1 → floatExpo (bitsAt bytes off) ≠ 255 →
      readFloat32 bytes off =
        JsNum.fin (roundFix4 (floatMag (floatExpo (bitsAt bytes off))
          (floatFrac (bitsAt bytes off))))) ∧
    (¬(floatExpo (bitsAt bytes off) = 255 ∧ floatFrac (bitsAt bytes off) ≠ 0) →
      (readFloat32 bytes off).nonneg) ∧
    (off = 6 + bytes.getD 2 0 →
      ¬(floatExpo (bitsAt bytes off) = 255 ∧ floatFrac (bitsAt bytes off) ≠ 0) →
      (parseTradePrice bytes).nonneg ∧ (parseQuotePrice bytes).nonneg) := by
  set bits := bitsAt bytes off with hbits
  have hnan : floatExpo bits = 255 ∧ floatFrac bits ≠ 0 →
      readFloat32 bytes off = JsNum.nan := by
    intro ⟨he, hf⟩
    rw [readFloat32, ← hbits, decodeBits, if_pos he, if_neg hf]
    rfl
  have hneg : floatSign bits = 1 →
      ¬(floatExpo bits = 255 ∧ floatFrac bits ≠ 0) →
      readFloat32 bytes off = JsNum.fin 0 := by
    intro hs hnn
    rw [readFloat32, ← hbits, decodeBits]
    by_cases he : floatExpo bits = 255
    · have hf : floatFrac bits = 0 := by tauto
      rw [if_pos he, if_pos hf, if_pos hs]
      rfl
    · rw [if_neg he, if_pos hs]
      have hle : roundFix4 (-(floatMag (floatExpo bits) (floatFrac bits))) ≤ 0 :=
        roundFix4_nonpos (by simpa using floatMag_nonneg _ _)
      simp only [jsToFixed4, JsNum.ltZero]
      rcases lt_or_eq_of_le hle with hlt | heq
      · rw [if_pos (by simpa using hlt)]
      · rw [if_neg (by simp [heq]), heq]
  have hpos : floatSign bits ≠ 1 → floatExpo bits ≠ 255 →
      readFloat32 bytes off =
        JsNum.fin (roundFix4 (floatMag (floatExpo bits) (floatFrac bits))) := by
    intro hs he
    rw [readFloat32, ← hbits, decodeBits, if_neg he, if_neg hs]
    have hge : 0 ≤ roundFix4 (floatMag (floatExpo bits) (floatFrac bits)) :=
      roundFix4_nonneg (floatMag_nonneg _ _)
    simp only [jsToFixed4, JsNum.ltZero]
    rw [if_neg (by simp; exact hge)]
  have hnonneg : ¬(floatExpo bits = 255 ∧ floatFrac bits ≠ 0) →
      (readFloat32 bytes off).nonneg := by
    intro hnn
    by_cases hs : floatSign bits = 1
    · rw [hneg hs hnn]
      exact le_refl (0 : ℚ)
    · by_cases he : floatExpo bits = 255
      · have hf : floatFrac bits = 0 := by tauto
        rw [readFloat32, ← hbits, decodeBits, if_pos he, if_pos hf, if_neg hs]
        exact trivial
      · rw [hpos hs he]
        exact roundFix4_nonneg (floatMag_nonneg _ _)
  refine ⟨hnan, hneg, hpos, hnonneg, ?_⟩
  intro hoff hnn
  have h := hnonneg hnn
  rw [hoff] at h
  exact ⟨h, h⟩

/-- Witness for C2's amended theorem: the pattern of `-1.0`
(`[0,0,128,191]`) yields 0, and the pattern of `1.0` (`[0,0,128,63]`)
yields its rounded value. -/
theorem readFloat32_spec_witness :
    readFloat32 [0, 0, 128, 191] 0 = JsNum.fin 0 ∧
    readFloat32 [0, 0, 128, 63] 0 =
      JsNum.fin (roundFix4 (floatMag (floatExpo (bitsAt [0, 0, 128, 63] 0))
        (floatFrac (bitsAt [0, 0, 128, 63] 0)))) :=
  ⟨(readFloat32_spec [0, 0, 128, 191] 0).2.1 (by decide) (by decide),
   (readFloat32_spec [0, 0, 128, 63] 0).2.2.1 (by decide) (by decide)⟩

/-! ### The replay k-way merge (C3) -/

/-- A replay tick (`class Tick`, `src/index.js` lines 816-821). -/
structure Tick where
  timeReceived : Nat
  data : List Nat
  deriving DecidableEq

/-- The initial value of `t` in `pullNextTick` (`src/index.js` line 177):
the JavaScript number literal `9223372036854775806` is a double and its
value is exactly 2^63 (= 9223372036854775808); the comparison
`tick.timeReceived < t` mixes a BigInt with this double, which JavaScript
compares exactly. -/
def TICK_SENTINEL : Nat := 9223372036854775808

/-- The scan loop of `pullNextTick` (`src/index.js` lines 175-187) over the
remaining slots `l`, where `i` is the absolute index of the head of `l` and
`acc = (pullIndex, t)` is the best candidate so far (initially
`(0, TICK_SENTINEL)`): a strictly smaller `timeReceived` replaces the
candidate. -/
def pullScan : List (Option Tick) → Nat → Nat × Nat → Nat × Nat
  | [], _, acc => acc
  | none :: rest, i, acc => pullScan rest (i + 1) acc
  | some tk :: rest, i, (pi, t) =>
      if tk.timeReceived < t then pullScan rest (i + 1) (i, tk.timeReceived)
      else pullScan rest (i + 1) (pi, t)

/-- `pullNextTick(nextTicks)` (`src/index.js` lines 175-187): scan all slots
for the minimal pending tick, return that slot's content and null the slot
out.  When no slot beats the sentinel, `pullIndex` remains 0, and
`nextTicks[0]` — possibly `null` — is pulled. -/
def pullNextTick (next : List (Option Tick)) : Option Tick × List (Option Tick) :=
  (next.getD (pullScan next 0 (0, TICK_SENTINEL)).1 none,
   next.set (pullScan next 0 (0, TICK_SENTINEL)).1 none)

/-- `hasAnyValue(nextTicks)` (`src/index.js` lines 189-197). -/
def hasAnyValue (next : List (Option Tick)) : Bool := next.any Option.isSome

/-- `fillNextTicks(enumerators, nextTicks)` (`src/index.js` lines 161-173):
each exhausted (`null`) slot is refilled from its iterator — modelled as the
list of ticks the iterator has yet to produce, slot `i` drawing from
`streams[i]`.  Returns the advanced streams and the refilled slots; the
driver keeps both lists the same length. -/
def fillNextTicks : List (List Tick) → List (Option Tick) →
    List (List Tick) × List (Option Tick)
  | streams, [] => (streams, [])
  | [], next => ([], next)
  | s :: ss, n :: ns =>
      let slot : List Tick × Option Tick :=
        match n, s with
        | some tk, s => (s, some tk)
        | none, [] => ([], none)
        | none, tk :: ts => (ts, some tk)
      ((slot.1 :: (fillNextTicks ss ns).1), (slot.2 :: (fillNextTicks ss ns).2))

/-- The loop of `replayFileGroupWithoutDelay` (`src/index.js` lines
199-219), with `fuel` bounding the number of iterations (the source loop is
unbounded; every finite prefix of its behaviour arises from some fuel):
while some slot is pending, pull the scanned slot, yield it when non-null,
and refill. -/
def replayLoop : Nat → List (List Tick) → List (Option Tick) → List Tick
  | 0, _, _ => []
  | fuel + 1, streams, next =>
      if hasAnyValue next then
        match (pullNextTick next).1 with
        | some tk =>
            tk :: replayLoop fuel (fillNextTicks streams (pullNextTick next).2).1
              (fillNextTicks streams (pullNextTick next).2).2
        | none =>
            replayLoop fuel (fillNextTicks streams (pullNextTick next).2).1
              (fillNextTicks streams (pullNextTick next).2).2
      else []

/-- `replayFileGroupWithoutDelay(tickGroup)` (`src/index.js` lines 199-219):
`nextTicks` starts as all-`null` of the group's length, is filled once, and
the loop runs. -/
def replayFileGroupWithoutDelay (fuel : Nat) (tickGroup : List (List Tick)) :
    List Tick :=
  replayLoop fuel
    (fillNextTicks tickGroup (List.replicate tickGroup.length none)).1
    (fillNextTicks tickGroup (List.replicate tickGroup.length none)).2

lemma getD_of_get? {α : Type} (l : List α) (i : Nat) (a d : α)
    (h : l.get? i = some a) : l.getD i d = a := by
  induction l generalizing i with
  | nil => cases h
  | cons x rest ih =>
      cases i with
      | zero => cases h; rfl
      | succ n => exact ih n h

lemma get?_set_self {α : Type} (l : List α) (i : Nat) (a : α)
    (h : i < l.length) : (l.set i a).get? i = some a := by
  induction l generalizing i with
  | nil => simp at h
  | cons x rest ih =>
      cases i with
      | zero => rfl
      | succ n => exact ih n (by simpa using h)

lemma get?_set_other {α : Type} (l : List α) (i j : Nat) (a : α)
    (h : i ≠ j) : (l.set i a).get? j = l.get? j := by
  induction l generalizing i j with
  | nil => rfl
  | cons x rest ih =>
      cases i with
      | zero =>
          cases j with
          | zero => exact absurd rfl h
          | succ m => rfl
      | succ n =>
          cases j with
          | zero => rfl
          | succ m => exact ih n m (by omega)

lemma get?_lt_length {α : Type} (l : List α) (i : Nat) (a : α)
    (h : l.get? i = some a) : i < l.length := by
  induction l generalizing i with
  | nil => cases h
  | cons x rest ih =>
      cases i with
      | zero => simp
      | succ n => simpa using ih n h

lemma exists_get?_of_mem {α : Type} (l : List α) (a : α) (h : a ∈ l) :
    ∃ i, l.get? i = some a := by
  induction l with
  | nil => cases h
  | cons x rest ih =>
      rcases List.mem_cons.mp h with rfl | hmem
      · exact ⟨0, rfl⟩
      · obtain ⟨i, hi⟩ := ih hmem
        exact ⟨i + 1, hi⟩

lemma mem_of_get? {α : Type} (l : List α) (i : Nat) (a : α)
    (h : l.get? i = some a) : a ∈ l := by
  induction l generalizing i with
  | nil => cases h
  | cons x rest ih =>
      cases i with
      | zero => cases h; simp
      | succ n => exact List.mem_cons_of_mem x (ih n h)

lemma get?_replicate_lt {α : Type} (a : α) (n i : Nat) (h : i < n) :
    (List.replicate n a).get? i = some a := by
  induction n generalizing i with
  | zero => omega
  | succ m ih =>
      cases i with
      | zero => rfl
      | succ k => exact ih k (by omega)

/-- Full characterization of the scan: either no pending tick beats the
accumulator (which is then returned unchanged), or the result is the
earliest slot holding the minimal pending tick strictly below the
accumulator's `t`. -/
lemma pullScan_spec (l : List (Option Tick)) (i pi t : Nat) :
    ((pullScan l i (pi, t)).1 = pi ∧ (pullScan l i (pi, t)).2 = t ∧
      ∀ k tk, l.get? k = some (some tk) → t ≤ tk.timeReceived) ∨
    (∃ k tk, l.get? k = some (some tk) ∧ (pullScan l i (pi, t)).1 = i + k ∧
      (pullScan l i (pi, t)).2 = tk.timeReceived ∧ tk.timeReceived < t ∧
      (∀ k2 tk2, l.get? k2 = some (some tk2) →
        tk.timeReceived ≤ tk2.timeReceived) ∧
      (∀ k2 tk2, k2 < k → l.get? k2 = some (some tk2) →
        tk.timeReceived < tk2.timeReceived)) := by
  induction l generalizing i pi t with
  | nil =>
      left
      exact ⟨rfl, rfl, fun k tk h => by cases h⟩
  | cons x rest ih =>
      cases x with
      | none =>
          have heq : pullScan (none :: rest) i (pi, t) = pullScan rest (i + 1) (pi, t) := rfl
          rcases ih (i + 1) pi t with ⟨h1, h2, h3⟩ | ⟨k, tk, hget, h1, h2, h3, h4, h5⟩
          · left
            refine ⟨by rw [heq, h1], by rw [heq, h2], fun k tk hk => ?_⟩
            cases k with
            | zero => cases hk
            | succ k2 => exact h3 k2 tk hk
          · right
            refine ⟨k + 1, tk, hget, by rw [heq, h1]; omega, by rw [heq, h2], h3,
              fun k2 tk2 hk2 => ?_, fun k2 tk2 hlt hk2 => ?_⟩
            · cases k2 with
              | zero => cases hk2
              | succ k3 => exact h4 k3 tk2 hk2
            · cases k2 with
              | zero => cases hk2
              | succ k3 => exact h5 k3 tk2 (by omega) hk2
      | some tk0 =>
          by_cases hlt : tk0.timeReceived < t
          · have heq : pullScan (some tk0 :: rest) i (pi, t) =
                pullScan rest (i + 1) (i, tk0.timeReceived) := by
              simp [pullScan, hlt]
            rcases ih (i + 1) i tk0.timeReceived with
              ⟨h1, h2, h3⟩ | ⟨k, tk, hget, h1, h2, h3, h4, h5⟩
            · right
              refine ⟨0, tk0, rfl, by rw [heq, h1]; omega, by rw [heq, h2], hlt,
                fun k2 tk2 hk2 => ?_, fun k2 tk2 hl hk2 => by omega⟩
              cases k2 with
              | zero =>
                  cases hk2
                  exact le_refl _
              | succ k3 => exact h3 k3 tk2 hk2
            · right
              refine ⟨k + 1, tk, hget, by rw [heq, h1]; omega, by rw [heq, h2],
                lt_trans h3 hlt, fun k2 tk2 hk2 => ?_, fun k2 tk2 hl hk2 => ?_⟩
              · cases k2 with
                | zero =>
                    cases hk2
                    exact le_of_lt h3
                | succ k3 => exact h4 k3 tk2 hk2
              · cases k2 with
                | zero =>
                    cases hk2
                    exact h3
                | succ k3 => exact h5 k3 tk2 (by omega) hk2
          · have heq : pullScan (some tk0 :: rest) i (pi, t) =
                pullScan rest (i + 1) (pi, t) := by
              simp [pullScan, hlt]
            rcases ih (i + 1) pi t with ⟨h1, h2, h3⟩ | ⟨k, tk, hget, h1, h2, h3, h4, h5⟩
            · left
              refine ⟨by rw [heq, h1], by rw [heq, h2], fun k tk hk => ?_⟩
              cases k with
              | zero =>
                  cases hk
                  omega
              | succ k2 => exact h3 k2 tk hk
            · right
              refine ⟨k + 1, tk, hget, by rw [heq, h1]; omega, by rw [heq, h2], h3,
                fun k2 tk2 hk2 => ?_, fun k2 tk2 hl hk2 => ?_⟩
              · cases k2 with
                | zero =>
                    cases hk2
                    omega
                | succ k3 => exact h4 k3 tk2 hk2
              · cases k2 with
                | zero =>
                    cases hk2
                    omega
                | succ k3 => exact h5 k3 tk2 (by omega) hk2

/-- `pullNextTick` on a state with some pending slot, all of whose pending
times are below the sentinel: it pulls the pending tick with minimal
`timeReceived`, from the lowest index attaining that minimum, and nulls that
slot. -/
lemma pullNextTick_spec (next : List (Option Tick))
    (hbound : ∀ i tk, next.get? i = some (some tk) →
      tk.timeReceived < TICK_SENTINEL)
    (hany : hasAnyValue next = true) :
    ∃ pi tk, next.get? pi = some (some tk) ∧
      pullNextTick next = (some tk, next.set pi none) ∧
      (∀ j u, next.get? j = some (some u) →
        tk.timeReceived ≤ u.timeReceived) ∧
      (∀ j u, j < pi → next.get? j = some (some u) →
        tk.timeReceived < u.timeReceived) := by
  obtain ⟨x, hxmem, hxsome⟩ := List.any_eq_true.mp hany
  obtain ⟨tkx, rfl⟩ := Option.isSome_iff_exists.mp hxsome
  obtain ⟨ix, hix⟩ := exists_get?_of_mem next (some tkx) hxmem
  rcases pullScan_spec next 0 0 TICK_SENTINEL with
    ⟨_, _, h3⟩ | ⟨k, tk, hget, h1, h2, h3, h4, h5⟩
  · exact absurd (hbound ix tkx hix) (by have := h3 ix tkx hix; omega)
  · refine ⟨k, tk, hget, ?_, h4, fun j u hj hju => h5 j u (by omega) hju⟩
    rw [pullNextTick, h1, Nat.zero_add, getD_of_get? next k (some tk) none hget]

lemma fillNextTicks_length1 (streams : List (List Tick))
    (next : List (Option Tick)) :
    (fillNextTicks streams next).1.length = streams.length := by
  induction streams generalizing next with
  | nil => cases next <;> rfl
  | cons s ss ih =>
      cases next with
      | nil => rfl
      | cons n ns => simpa [fillNextTicks] using ih ns

lemma fillNextTicks_length2 (streams : List (List Tick))
    (next : List (Option Tick)) :
    (fillNextTicks streams next).2.length = next.length := by
  induction streams generalizing next with
  | nil => cases next <;> rfl
  | cons s ss ih =>
      cases next with
      | nil => rfl
      | cons n ns => simpa [fillNextTicks] using ih ns

lemma fillNextTicks_pending (streams : List (List Tick))
    (next : List (Option Tick)) (i : Nat) (tk : Tick)
    (h : next.get? i = some (some tk)) :
    (fillNextTicks streams next).2.get? i = some (some tk) ∧
    (fillNextTicks streams next).1.get? i = streams.get? i := by
  induction streams generalizing next i with
  | nil =>
      cases next with
      | nil => cases h
      | cons n ns => exact ⟨h, rfl⟩
  | cons s ss ih =>
      cases next with
      | nil => cases h
      | cons n ns =>
          cases i with
          | zero =>
              cases h
              exact ⟨rfl, rfl⟩
          | succ m => exact ih ns m h

lemma fillNextTicks_refill (streams : List (List Tick))
    (next : List (Option Tick)) (i : Nat) (tk : Tick) (ts : List Tick)
    (hn : next.get? i = some none) (hs : streams.get? i = some (tk :: ts)) :
    (fillNextTicks streams next).2.get? i = some (some tk) ∧
    (fillNextTicks streams next).1.get? i = some ts := by
  induction streams generalizing next i with
  | nil => cases hs
  | cons s ss ih =>
      cases next with
      | nil => cases hn
      | cons n ns =>
          cases i with
          | zero =>
              cases hn
              cases hs
              exact ⟨rfl, rfl⟩
          | succ m => exact ih ns m hn hs

lemma fillNextTicks_origin (streams : List (List Tick))
    (next : List (Option Tick)) (i : Nat) (u : Tick)
    (h : (fillNextTicks streams next).2.get? i = some (some u)) :
    next.get? i = some (some u) ∨
    (next.get? i = some none ∧ ∃ ts, streams.get? i = some (u :: ts)) := by
  induction streams generalizing next i with
  | nil =>
      cases next with
      | nil => cases h
      | cons n ns => exact Or.inl h
  | cons s ss ih =>
      cases next with
      | nil => cases h
      | cons n ns =>
          cases i with
          | zero =>
              cases n with
              | some tk =>
                  cases h
                  exact Or.inl rfl
              | none =>
                  cases s with
                  | nil => cases h
                  | cons tk ts =>
                      cases h
                      exact Or.inr ⟨rfl, ts, rfl⟩
          | succ m => exact ih ns m h

lemma fillNextTicks_none (streams : List (List Tick))
    (next : List (Option Tick)) (i : Nat)
    (hlen : streams.length = next.length)
    (h : (fillNextTicks streams next).2.get? i = some none) :
    (fillNextTicks streams next).1.get? i = some [] ∧
    next.get? i = some none ∧ streams.get? i = some [] := by
  induction streams generalizing next i with
  | nil =>
      cases next with
      | nil => cases h
      | cons n ns => simp at hlen
  | cons s ss ih =>
      cases next with
      | nil => cases h
      | cons n ns =>
          cases i with
          | zero =>
              cases n with
              | some tk => cases h
              | none =>
                  cases s with
                  | nil => exact ⟨rfl, rfl, rfl⟩
                  | cons tk ts => cases h
          | succ m => exact ih ns m (by simpa using hlen) h

lemma fillNextTicks_stream_sub (streams : List (List Tick))
    (next : List (Option Tick)) (i : Nat) (s2 : List Tick)
    (h : (fillNextTicks streams next).1.get? i = some s2) :
    ∃ s, streams.get? i = some s ∧ (s2 = s ∨ ∃ u, s = u :: s2) := by
  induction streams generalizing next i with
  | nil =>
      cases next with
      | nil => cases h
      | cons n ns => cases h
  | cons s ss ih =>
      cases next with
      | nil => exact ⟨s2, h, Or.inl rfl⟩
      | cons n ns =>
          cases i with
          | zero =>
              cases n with
              | some tk =>
                  cases h
                  exact ⟨s, rfl, Or.inl rfl⟩
              | none =>
                  cases s with
                  | nil =>
                      cases h
                      exact ⟨[], rfl, Or.inl rfl⟩
                  | cons tk ts =>
                      cases h
                      exact ⟨tk :: ts, rfl, Or.inr ⟨tk, rfl⟩⟩
          | succ m => exact ih ns m h

/-- The loop invariant of `replayFileGroupWithoutDelay`'s state: the streams
and slots have equal length; every stream is strictly increasing in
`timeReceived` with all times below the sentinel; every pending tick is
below the sentinel and strictly precedes everything left in its own stream;
and an empty (`null`) slot has an exhausted stream. -/
def SlotsInv (streams : List (List Tick)) (next : List (Option Tick)) : Prop :=
  streams.length = next.length ∧
  (∀ i s, streams.get? i = some s →
    List.Pairwise (fun a b => a.timeReceived < b.timeReceived) s ∧
    ∀ u ∈ s, u.timeReceived < TICK_SENTINEL) ∧
  (∀ i tk, next.get? i = some (some tk) →
    tk.timeReceived < TICK_SENTINEL ∧
    ∀ s, streams.get? i = some s → ∀ u ∈ s, tk.timeReceived < u.timeReceived) ∧
  (∀ i, next.get? i = some none → streams.get? i = some [])

/-- One loop iteration from an invariant state with a pending slot: the
pulled tick is one of the pending ticks, the refilled state satisfies the
invariant again, and every tick pending afterwards has `timeReceived` at
least the pulled tick's. -/
lemma step_spec (streams : List (List Tick)) (next : List (Option Tick))
    (hinv : SlotsInv streams next) (hany : hasAnyValue next = true) :
    ∃ tk, (pullNextTick next).1 = some tk ∧
      (∃ j, next.get? j = some (some tk)) ∧
      SlotsInv (fillNextTicks streams (pullNextTick next).2).1
        (fillNextTicks streams (pullNextTick next).2).2 ∧
      (∀ i u, (fillNextTicks streams (pullNextTick next).2).2.get? i =
        some (some u) → tk.timeReceived ≤ u.timeReceived) := by
  obtain ⟨hlen, hstr, hpend, hnone⟩ := hinv
  obtain ⟨pi, tk, hget, heq, hmin, hstrict⟩ :=
    pullNextTick_spec next (fun i tk h => (hpend i tk h).1) hany
  have h1 : (pullNextTick next).1 = some tk := by rw [heq]
  have h2 : (pullNextTick next).2 = next.set pi none := by rw [heq]
  have hpilt : pi < next.length := get?_lt_length next pi (some tk) hget
  have hsetpi : (next.set pi none).get? pi = some none :=
    get?_set_self next pi none hpilt
  have hlen2 : streams.length = (next.set pi none).length := by
    rw [List.length_set]; exact hlen
  rw [h1, h2]
  have horigin : ∀ i u, (fillNextTicks streams (next.set pi none)).2.get? i =
      some (some u) →
      (i ≠ pi ∧ next.get? i = some (some u)) ∨
      ((next.set pi none).get? i = some none ∧
        ∃ ts, streams.get? i = some (u :: ts)) := by
    intro i u hu
    rcases fillNextTicks_origin streams (next.set pi none) i u hu with hA | hB
    · left
      by_cases hip : i = pi
      · subst hip
        rw [hsetpi] at hA
        cases hA
      · exact ⟨hip, by rwa [get?_set_other next pi i none (fun hpe => hip hpe.symm)] at hA⟩
    · exact Or.inr hB
  refine ⟨tk, rfl, ⟨pi, hget⟩, ⟨?_, ?_, ?_, ?_⟩, ?_⟩
  · rw [fillNextTicks_length1, fillNextTicks_length2, List.length_set]
    exact hlen
  · intro i s2 hs2
    obtain ⟨s, hs, hcase⟩ := fillNextTicks_stream_sub streams (next.set pi none) i s2 hs2
    obtain ⟨hp, hb⟩ := hstr i s hs
    rcases hcase with rfl | ⟨u, rfl⟩
    · exact ⟨hp, hb⟩
    · exact ⟨hp.of_cons, fun v hv => hb v (List.mem_cons_of_mem u hv)⟩
  · intro i u hu
    rcases horigin i u hu with ⟨hip, hA⟩ | ⟨hB, ts, hts⟩
    · obtain ⟨hub, hudom⟩ := hpend i u hA
      refine ⟨hub, fun s2 hs2 => ?_⟩
      have := (fillNextTicks_pending streams (next.set pi none) i u
        (by rwa [get?_set_other next pi i none (fun hpe => hip hpe.symm)])).2
      rw [this] at hs2
      exact hudom s2 hs2
    · obtain ⟨hp, hb⟩ := hstr i (u :: ts) hts
      refine ⟨hb u (by simp), fun s2 hs2 => ?_⟩
      have := (fillNextTicks_refill streams (next.set pi none) i u ts hB hts).2
      rw [this] at hs2
      cases hs2
      exact (List.pairwise_cons.mp hp).1
  · intro i hi
    exact (fillNextTicks_none streams (next.set pi none) i hlen2 hi).1
  · intro i u hu
    rcases horigin i u hu with ⟨hip, hA⟩ | ⟨hB, ts, hts⟩
    · exact hmin i u hA
    · by_cases hip : i = pi
      · subst hip
        exact le_of_lt ((hpend i tk hget).2 (u :: ts) hts u (by simp))
      · have hA : next.get? i = some none := by
          rwa [get?_set_other next pi i none (fun hpe => hip hpe.symm)] at hB
        rw [hnone i hA] at hts
        cases hts

lemma replayLoop_lower (fuel : Nat) (streams : List (List Tick))
    (next : List (Option Tick)) (lb : Nat) (hinv : SlotsInv streams next)
    (hlb : ∀ i u, next.get? i = some (some u) → lb ≤ u.timeReceived) :
    ∀ x ∈ replayLoop fuel streams next, lb ≤ x.timeReceived := by
  induction fuel generalizing streams next with
  | zero =>
      intro x hx
      simp [replayLoop] at hx
  | succ fuel ih =>
      by_cases hany : hasAnyValue next = true
      · obtain ⟨tk, h1, ⟨j, hj⟩, hinv2, hge⟩ := step_spec streams next hinv hany
        have hunfold : replayLoop (fuel + 1) streams next =
            tk :: replayLoop fuel (fillNextTicks streams (pullNextTick next).2).1
              (fillNextTicks streams (pullNextTick next).2).2 := by
          rw [replayLoop, if_pos hany, h1]
        intro x hx
        rw [hunfold] at hx
        rcases List.mem_cons.mp hx with rfl | hx2
        · exact hlb j x hj
        · exact ih _ _ hinv2
            (fun i u hu => le_trans (hlb j tk hj) (hge i u hu)) x hx2
      · intro x hx
        rw [replayLoop, if_neg hany] at hx
        cases hx

lemma replayLoop_sorted (fuel : Nat) (streams : List (List Tick))
    (next : List (Option Tick)) (hinv : SlotsInv streams next) :
    List.Pairwise (fun a b => a.timeReceived ≤ b.timeReceived)
      (replayLoop fuel streams next) := by
  induction fuel generalizing streams next with
  | zero => exact List.Pairwise.nil
  | succ fuel ih =>
      by_cases hany : hasAnyValue next = true
      · obtain ⟨tk, h1, ⟨j, hj⟩, hinv2, hge⟩ := step_spec streams next hinv hany
        have hunfold : replayLoop (fuel + 1) streams next =
            tk :: replayLoop fuel (fillNextTicks streams (pullNextTick next).2).1
              (fillNextTicks streams (pullNextTick next).2).2 := by
          rw [replayLoop, if_pos hany, h1]
        rw [hunfold]
        exact List.pairwise_cons.mpr
          ⟨fun x hx => replayLoop_lower fuel _ _ tk.timeReceived hinv2 hge x hx,
           ih _ _ hinv2⟩
      · rw [replayLoop, if_neg hany]
        exact List.Pairwise.nil

lemma replicate_none_get? (n i : Nat) (x : Option Tick)
    (h : (List.replicate n (none : Option Tick)).get? i = some x) : x = none := by
  induction n generalizing i with
  | zero => cases h
  | succ m ih =>
      cases i with
      | zero => cases h; rfl
      | succ k => exact ih k h

lemma initial_inv (tickGroup : List (List Tick))
    (hsorted : ∀ s ∈ tickGroup,
      List.Pairwise (fun a b => a.timeReceived < b.timeReceived) s)
    (hbound : ∀ s ∈ tickGroup, ∀ u ∈ s, u.timeReceived < TICK_SENTINEL) :
    SlotsInv
      (fillNextTicks tickGroup (List.replicate tickGroup.length none)).1
      (fillNextTicks tickGroup (List.replicate tickGroup.length none)).2 := by
  have hlen0 : tickGroup.length =
      (List.replicate tickGroup.length (none : Option Tick)).length := by simp
  refine ⟨?_, ?_, ?_, ?_⟩
  · rw [fillNextTicks_length1, fillNextTicks_length2]
    exact hlen0
  · intro i s2 hs2
    obtain ⟨s, hs, hcase⟩ := fillNextTicks_stream_sub tickGroup _ i s2 hs2
    have hmem : s ∈ tickGroup := mem_of_get? tickGroup i s hs
    rcases hcase with rfl | ⟨u, rfl⟩
    · exact ⟨hsorted s2 hmem, fun v hv => hbound s2 hmem v hv⟩
    · exact ⟨(hsorted _ hmem).of_cons,
        fun v hv => hbound _ hmem v (List.mem_cons_of_mem u hv)⟩
  · intro i u hu
    rcases fillNextTicks_origin tickGroup _ i u hu with hA | ⟨hB, ts, hts⟩
    · exact absurd (replicate_none_get? _ i (some u) hA) (by simp)
    · have hmem : (u :: ts) ∈ tickGroup := mem_of_get? tickGroup i _ hts
      refine ⟨hbound _ hmem u (by simp), fun s2 hs2 => ?_⟩
      have := (fillNextTicks_refill tickGroup _ i u ts hB hts).2
      rw [this] at hs2
      cases hs2
      exact (List.pairwise_cons.mp (hsorted _ hmem)).1
  · intro i hi
    exact (fillNextTicks_none tickGroup _ i hlen0 hi).1

/-- Counterexample for C3 as stated: with timestamps at or above 2^63 the
comparison against the scan's initial `t` (the literal
`9223372036854775806`, i.e. the double 2^63) never fires, so `pullIndex`
stays 0.  Each input iterator below is strictly increasing (a singleton);
slots 1 and 2 hold the two equal minimal pending ticks (time 2^63+5), yet
`pullNextTick` yields slot 0's strictly larger tick (time 2^63+9), and the
whole merge yields only that tick — the lower-indexed minimal tick is never
yielded first. -/
theorem replayMerge_counterexample :
    (Tick.mk (2 ^ 63 + 5) [1]).timeReceived =
      (Tick.mk (2 ^ 63 + 5) [2]).timeReceived ∧
    (Tick.mk (2 ^ 63 + 5) [1]).timeReceived <
      (Tick.mk (2 ^ 63 + 9) []).timeReceived ∧
    pullNextTick [some (Tick.mk (2 ^ 63 + 9) []), some (Tick.mk (2 ^ 63 + 5) [1]),
        some (Tick.mk (2 ^ 63 + 5) [2])] =
      (some (Tick.mk (2 ^ 63 + 9) []),
       [none, some (Tick.mk (2 ^ 63 + 5) [1]), some (Tick.mk (2 ^ 63 + 5) [2])]) ∧
    replayFileGroupWithoutDelay 3
        [[Tick.mk (2 ^ 63 + 9) []], [Tick.mk (2 ^ 63 + 5) [1]],
         [Tick.mk (2 ^ 63 + 5) [2]]] =
      [Tick.mk (2 ^ 63 + 9) []] := by
  decide

/-- C3 (amended): provided every tick's `timeReceived` is strictly below
2^63 (the exact value of the scan's sentinel literal
`9223372036854775806` as a JavaScript double), the merge is correct: (1) for
iterators with strictly increasing `timeReceived` the sequence yielded by
`replayFileGroupWithoutDelay` is non-decreasing in `timeReceived`, for every
number of loop iterations; and (2) `pullNextTick` always pulls a pending
tick of minimal `timeReceived` and, among slots attaining that minimum, the
one with the lowest index — so on equal minimal times the tick from the
lower iterator index is yielded first. -/
theorem replayMerge_spec :
    (∀ (fuel : Nat) (tickGroup : List (List Tick)),
      (∀ s ∈ tickGroup,
        List.Pairwise (fun a b => a.timeReceived < b.timeReceived) s) →
      (∀ s ∈ tickGroup, ∀ u ∈ s, u.timeReceived < TICK_SENTINEL) →
      List.Pairwise (fun a b => a.timeReceived ≤ b.timeReceived)
        (replayFileGroupWithoutDelay fuel tickGroup)) ∧
    (∀ next : List (Option Tick),
      (∀ i tk, next.get? i = some (some tk) →
        tk.timeReceived < TICK_SENTINEL) →
      hasAnyValue next = true →
      ∃ pi tk, next.get? pi = some (some tk) ∧
        pullNextTick next = (some tk, next.set pi none) ∧
        (∀ j u, next.get? j = some (some u) →
          tk.timeReceived ≤ u.timeReceived) ∧
        (∀ j u, j < pi → next.get? j = some (some u) →
          tk.timeReceived < u.timeReceived)) :=
  ⟨fun fuel tickGroup hs hb =>
    replayLoop_sorted fuel _ _ (initial_inv tickGroup hs hb),
   fun next hb hany => pullNextTick_spec next hb hany⟩

/-- Witness for C3's amended theorem: the two-file group
`[(10,a),(30,c)]`, `[(20,b),(25,d)]` merges into a non-decreasing sequence,
and on the state `[some (20,b), some (10,e)]` the pull is characterized. -/
theorem replayMerge_spec_witness :
    List.Pairwise (fun a b => a.timeReceived ≤ b.timeReceived)
      (replayFileGroupWithoutDelay 5
        [[Tick.mk 10 [1], Tick.mk 30 [3]], [Tick.mk 20 [2], Tick.mk 25 [4]]]) ∧
    (∃ pi tk,
      ([some (Tick.mk 20 [2]), some (Tick.mk 10 [1])] :
          List (Option Tick)).get? pi = some (some tk) ∧
      pullNextTick [some (Tick.mk 20 [2]), some (Tick.mk 10 [1])] =
        (some tk, ([some (Tick.mk 20 [2]), some (Tick.mk 10 [1])] :
          List (Option Tick)).set pi none) ∧
      (∀ j u, ([some (Tick.mk 20 [2]), some (Tick.mk 10 [1])] :
          List (Option Tick)).get? j = some (some u) →
        tk.timeReceived ≤ u.timeReceived) ∧
      (∀ j u, j < pi →
        ([some (Tick.mk 20 [2]), some (Tick.mk 10 [1])] :
          List (Option Tick)).get? j = some (some u) →
        tk.timeReceived < u.timeReceived)) :=
  ⟨replayMerge_spec.1 5
      [[Tick.mk 10 [1], Tick.mk 30 [3]], [Tick.mk 20 [2], Tick.mk 25 [4]]]
      (by decide) (by decide),
   replayMerge_spec.2 [some (Tick.mk 20 [2]), some (Tick.mk 10 [1])]
      (by
        intro i tk h
        rcases i with _ | (_ | i)
        · cases h; decide
        · cases h; decide
        · cases h)
      (by decide)⟩

end Intrinio
